import Mathlib

/-!
Shallow embedding of the configuration and archive utilities of
`lib/python/voltcli/utility.py` (VoltDB CLI utility module), together with
proofs of the specified properties.

Strings are modelled as Lean `String`s; Python byte-wise string comparison
is modelled by lexicographic comparison of character codes, and Python
`str.lower` by ASCII lowercasing.  Python dictionaries are modelled as
association lists in insertion order (`dinsert` overwrites in place, as a
dict assignment does).  A fatal `abort` and uncaught Python exceptions are
modelled with `Except String`.
-/

namespace VoltCLI

/-- Lexicographic comparison of character lists by character code,
modelling Python string comparison (`<=`). -/
def lexLe : List Char → List Char → Bool
  | [], _ => true
  | _ :: _, [] => false
  | a :: as, b :: bs =>
      if a.toNat < b.toNat then true
      else if b.toNat < a.toNat then false
      else lexLe as bs

/-- Python string `<=` on `String`. -/
def strLe (a b : String) : Bool := lexLe a.data b.data

/-- ASCII lowercasing of one character, modelling Python 2 `str.lower`. -/
def lowerChar (c : Char) : Char :=
  if 65 ≤ c.toNat ∧ c.toNat ≤ 90 then Char.ofNat (c.toNat + 32) else c

/-- ASCII lowercasing of a string, modelling Python 2 `str.lower`. -/
def lowerStr (s : String) : String := ⟨s.data.map lowerChar⟩

/-- Whether a key contains the section separator, modelling
`key.find('.') != -1`. -/
def hasDot (k : String) : Bool := k.data.contains '.'

/-- Split a character list at the first dot, modelling
`key.split('.', 1)` (for keys that do contain a dot). -/
def splitAtDot : List Char → List Char × List Char
  | [] => ([], [])
  | c :: rest =>
      if c = '.' then ([], rest)
      else
        let p := splitAtDot rest
        (c :: p.1, p.2)

/-- The section part of a dotted key (before the first dot). -/
def sectOf (k : String) : String := ⟨(splitAtDot k.data).1⟩

/-- The name part of a dotted key (after the first dot). -/
def nameOf (k : String) : String := ⟨(splitAtDot k.data).2⟩

/-- Rebuild a dotted key from a section and a name,
modelling `'%s.%s' % (section, name)`. -/
def joinKey (s n : String) : String := ⟨s.data ++ '.' :: n.data⟩

/-- Python `str.startswith`. -/
def pyStartsWith (s pre : String) : Bool := pre.data.isPrefixOf s.data

/-- A Python dictionary of strings, as an association list in insertion
order with unique keys. -/
abbrev Dict := List (String × String)

/-- Dictionary lookup, modelling `d.get(key, None)` / `d[key]`. -/
def dget : Dict → String → Option String
  | [], _ => none
  | (k', v) :: rest, k => if k' = k then some v else dget rest k

/-- Dictionary membership, modelling `key in d`. -/
def dmem (d : Dict) (k : String) : Bool := d.any (fun q => q.1 == k)

/-- Dictionary assignment `d[k] = v`: overwrite in place, else append. -/
def dinsert : Dict → String → String → Dict
  | [], k, v => [(k, v)]
  | (k', v') :: rest, k, v =>
      if k' = k then (k, v) :: rest else (k', v') :: dinsert rest k v

/-- Insert a key into an ascending list, for modelling `keys.sort()`. -/
def insortKey (k : String) : List String → List String
  | [] => [k]
  | x :: xs => if strLe k x then k :: x :: xs else x :: insortKey k xs

/-- Ascending sort of a key list, modelling Python `list.sort()`. -/
def sortKeys (l : List String) : List String := l.foldr insortKey []

/-- Split a character list at the first `)`, modelling what the
interpolation-variable pattern of `ConfigParser` matches after a leading
`%(` — the variable name is whatever stands before the first `)`.
Returns `none` when no `)` follows. -/
def grabVar : List Char → Option (List Char × List Char)
  | [] => none
  | ')' :: rest => some ([], rest)
  | c :: rest => (grabVar rest).map (fun q => (c :: q.1, q.2))

/-- Left-to-right removal of `%%` pairs, modelling
`value.replace('%%', '')` in `SafeConfigParser.set`. -/
def stripDoublePercent : List Char → List Char
  | [] => []
  | [c] => [c]
  | c1 :: c2 :: rest =>
      if c1 = '%' ∧ c2 = '%' then stripDoublePercent rest
      else c1 :: stripDoublePercent (c2 :: rest)

/-- One fuelled pass removing every `%(name)s` occurrence, modelling
`self._interpvar_re.sub('', tmp_value)` in `SafeConfigParser.set`.  The
fuel is the input length; every step consumes at least one character, so
the zero-fuel fallback is never reached for that fuel. -/
def sivGo : Nat → List Char → List Char
  | 0, l => l
  | _ + 1, [] => []
  | fuel + 1, c :: rest =>
      if c = '%' then
        match rest with
        | '(' :: r2 =>
            match grabVar r2 with
            | some (var, 's' :: r3) =>
                if var.isEmpty then c :: sivGo fuel rest
                else sivGo fuel r3
            | _ => c :: sivGo fuel rest
        | _ => c :: sivGo fuel rest
      else c :: sivGo fuel rest

/-- Removal of all `%(name)s` interpolation references from a value. -/
def stripInterpVar (l : List Char) : List Char := sivGo l.length l

/-- The percent-syntax validation `SafeConfigParser.set` performs on a
value: after removing `%%` pairs and `%(name)s` references no `%` may
remain, otherwise the parser raises
`ValueError: invalid interpolation syntax`. -/
def percentOk (v : String) : Bool :=
  !(stripInterpVar (stripDoublePercent v.data)).contains '%'

/-- The `ValueError` raised by `SafeConfigParser.set` on a value with a
stray percent sign. -/
def valuePercentErrMsg : String := "ValueError: invalid interpolation syntax"

/-- The `ValueError` raised by Python 2.7 `RawConfigParser.add_section`
when the section name is `default` in any letter case. -/
def invalidSectionErrMsg (s : String) : String :=
  "ValueError: Invalid section name: " ++ s

/-- The uncaught exception at the end of `INIConfigManager.save` (and
`XMLConfigManager.save`): line 748 evaluates `FileWriter(path)`, but no
`FileWriter` exists in the module or its imports (only `class File`), so
the write is never reached. -/
def fileWriterErrMsg : String := "NameError: global name FileWriter is not defined"

/-- Interpolation failure messages of `SafeConfigParser._interpolate_some`. -/
def interpSyntaxErrMsg : String := "InterpolationSyntaxError"

/-- Raised when a `%(name)s` reference names an option the section does
not have. -/
def interpMissingErrMsg : String := "InterpolationMissingOptionError"

/-- Raised when interpolation recurses past the maximum depth. -/
def interpDepthErrMsg : String := "InterpolationDepthError"

/-- The scan loop of `SafeConfigParser._interpolate_some` at one depth:
`%%` emits `%`; `%(name)s` looks the (lowercased) name up among the
section's options and splices the option's value, deferring to `sub` when
that value itself contains `%`; any other `%` is a syntax error.  The
fuel is the remaining scan steps; passing the input length makes its zero
case unreachable. -/
def interpInner (map : List (String × String))
    (sub : List Char → Except String (List Char)) :
    Nat → List Char → Except String (List Char)
  | 0, l => .ok l
  | _ + 1, [] => .ok []
  | sf + 1, c :: rest =>
      if c = '%' then
        match rest with
        | '%' :: r2 => (interpInner map sub sf r2).map (fun t => '%' :: t)
        | '(' :: r2 =>
            match grabVar r2 with
            | some (var, 's' :: r3) =>
                if var.isEmpty then .error interpSyntaxErrMsg
                else
                  match dget map (lowerStr ⟨var⟩) with
                  | none => .error interpMissingErrMsg
                  | some v =>
                      if v.data.contains '%' then
                        match sub v.data with
                        | .error e => .error e
                        | .ok sv => (interpInner map sub sf r3).map (fun t => sv ++ t)
                      else (interpInner map sub sf r3).map (fun t => v.data ++ t)
            | _ => .error interpSyntaxErrMsg
        | _ => .error interpSyntaxErrMsg
      else (interpInner map sub sf rest).map (fun t => c :: t)

/-- Model of `SafeConfigParser._interpolate_some`: the first argument is
the remaining substitution depth; entering a nested substitution beyond
it raises the depth error, as Python does past its ten allowed levels. -/
def interpOuter (map : List (String × String)) : Nat → List Char → Except String (List Char)
  | 0, _ => .error interpDepthErrMsg
  | df + 1, l => interpInner map (fun v => interpOuter map df v) l.length l

/-- Interpolate one stored value against its section's option map, as
`parser.items(section)` does; the initial depth allows the ten levels
Python 2.7 permits. -/
def interpValue (map : List (String × String)) (v : String) : Except String String :=
  (interpOuter map 10 v.data).map (fun l => ⟨l⟩)

/-- Abstract INI file contents, as produced and consumed through
`ConfigParser.SafeConfigParser`: the sections in order with their option
assignments.  Option names are stored lowercased (`optionxform`). -/
abbrev IniFile := List (String × List (String × String))

/-- The section names of an INI file, in order. -/
def sections (p : IniFile) : List String := p.map Prod.fst

/-- Model of `parser.add_section(section)` (Python 2.7): a section named
`default` in any case is a `ValueError`, a duplicate section fails,
otherwise an empty section is appended. -/
def addSection (p : IniFile) (s : String) : Except String IniFile :=
  if lowerStr s = "default" then .error (invalidSectionErrMsg s)
  else if s ∈ sections p then .error ("DuplicateSectionError: " ++ s)
  else .ok (p ++ [(s, [])])

/-- The storage part of `parser.set`: stores the value in the first
section of that name; fails when the section does not exist
(`RawConfigParser.set`). -/
def parserSetRaw (p : IniFile) (s n v : String) : Except String IniFile :=
  match p with
  | [] => .error ("NoSectionError: " ++ s)
  | (s', opts) :: rest =>
      if s' = s then .ok ((s', dinsert opts n v) :: rest)
      else (parserSetRaw rest s n v).map (fun r => (s', opts) :: r)

/-- Model of `SafeConfigParser.set(section, option, value)`: first
validates the value's interpolation syntax (a stray `%` raises
`ValueError`), then stores it. -/
def parserSet (p : IniFile) (s n v : String) : Except String IniFile :=
  if percentOk v then parserSetRaw p s n v
  else .error valuePercentErrMsg

/-- The abort message of `INIConfigManager.save` for a key without a
section separator. -/
def keyErrMsg (k : String) : String :=
  "Key \"" ++ k ++ "\" must have a section, e.g. \"volt." ++ k ++ "\""

/-- One iteration of the key loop in `INIConfigManager.save`: validate the
key, add a section when the section changes, and set the option (the
parser lowercases the option name). -/
def saveStep (d : Dict) (cur : Option String) (p : IniFile) (key : String) :
    Except String (Option String × IniFile) :=
  if hasDot key = false then .error (keyErrMsg key)
  else
    let s := sectOf key
    let v := (dget d key).getD ""
    if cur = some s then
      (parserSet p s (lowerStr (nameOf key)) v).map (fun p' => (some s, p'))
    else
      match addSection p s with
      | .error e => .error e
      | .ok p1 => (parserSet p1 s (lowerStr (nameOf key)) v).map (fun p' => (some s, p'))

/-- The key loop of `INIConfigManager.save` over the sorted key list. -/
def saveLoop (d : Dict) : List String → Option String → IniFile → Except String IniFile
  | [], _, p => .ok p
  | key :: rest, cur, p =>
      match saveStep d cur p key with
      | .error e => .error e
      | .ok (cur', p') => saveLoop d rest cur' p'

/-- One section's option dictionary as `parser.read` builds it: option
names lowercased, later assignments overwriting. -/
def parseSection (opts : List (String × String)) : List (String × String) :=
  opts.foldl (fun acc nv => dinsert acc (lowerStr nv.1) nv.2) []

/-- The inner loop of `INIConfigManager.load` over `parser.items(section)`:
each value is interpolated against the section's option map, and
`d['%s.%s' % (section, name)] = value` flattens the pair. -/
def loadItems (s : String) (map : List (String × String)) (acc : Dict) :
    List (String × String) → Except String Dict
  | [] => .ok acc
  | (n, v) :: rest =>
      match interpValue map v with
      | .error e => .error e
      | .ok v' => loadItems s map (dinsert acc (joinKey s n) v') rest

/-- The outer loop of `INIConfigManager.load` over `parser.sections()`. -/
def loadSections (acc : Dict) : IniFile → Except String Dict
  | [] => .ok acc
  | (s, opts) :: rest =>
      match loadItems s (parseSection opts) acc (parseSection opts) with
      | .error e => .error e
      | .ok acc' => loadSections acc' rest

namespace INIConfigManager

/-- Model of `INIConfigManager.save(path, d)`: sort the keys, abort on a
key without a separator, group consecutive equal sections — and then hit
line 748, `f = FileWriter(path)`: `FileWriter` is not defined anywhere in
the module (only `class File` is) nor importable from its imports, so a
run that survives the key loop raises `NameError` and never writes the
parser contents to disk. -/
def save (d : Dict) : Except String IniFile :=
  match saveLoop d (sortKeys (d.map Prod.fst)) none [] with
  | .error e => .error e
  | .ok _ => .error fileWriterErrMsg

/-- Model of `INIConfigManager.load(path)`: flatten every section item
into a `section.name` key; the parser lowercases option names on read and
`items` interpolates each value against its section's options (so a value
with `%` in it is rewritten, or raises). -/
def load (f : IniFile) : Except String Dict := loadSections [] f

end INIConfigManager

/-- A file system restricted to INI files: contents by path.  Running
`INIConfigManager.save(path, d)` either aborts (leaving every file as it
was) or overwrites the file at `path` in full — the latter is unreachable
because `save` always fails before writing. -/
def saveToDisk (disk : String → Option IniFile) (path : String) (d : Dict) :
    ((String → Option IniFile) × Option String) :=
  match INIConfigManager.save d with
  | .error e => (disk, some e)
  | .ok f => (fun p => if p = path then some f else disk p, none)

/-- The in-memory state of `PersistentConfig`: the two configuration tiers. -/
structure PersistentConfig where
  permanent : Dict
  local_ : Dict
  deriving Repr, DecidableEq

/-- Model of `PersistentConfig.get(key)`: the local tier wins, then the
permanent tier, then `None`. -/
def PersistentConfig.get (cfg : PersistentConfig) (key : String) : Option String :=
  if dmem cfg.local_ key then dget cfg.local_ key
  else dget cfg.permanent key

/-- The uncaught Python exception raised by the merge loops of
`PersistentConfig.query`, which assign into the never-initialized
attribute `self.results`. -/
def attrErrMsg : String :=
  "AttributeError: PersistentConfig instance has no attribute results"

/-- Model of `PersistentConfig.query(filter)`.  With a truthy filter it
collects the matching local keys, then walks the permanent tier and
assigns any remaining matching key into `self.results` — an attribute
that was never initialized, so the first such key raises.  With a falsy
filter it starts from the local dictionary and the same applies. -/
def PersistentConfig.query (cfg : PersistentConfig) (filt : Option String) :
    Except String Dict :=
  let truthy : Bool := match filt with
    | none => false
    | some f => f ≠ ""
  if truthy then
    let f := filt.getD ""
    let results := cfg.local_.filter (fun q => pyStartsWith q.1 f)
    if cfg.permanent.any (fun q => !dmem results q.1 && pyStartsWith q.1 f) then
      .error attrErrMsg
    else .ok results
  else
    let results := cfg.local_
    if cfg.permanent.any (fun q => !dmem results q.1) then
      .error attrErrMsg
    else .ok results

/-- A `PersistentConfig` together with the on-disk contents of its two
files. -/
structure ConfigState where
  cfg : PersistentConfig
  permFile : Option IniFile
  localFile : Option IniFile

/-- Model of `PersistentConfig.set_permanent(key, value)`: assign into the
permanent dictionary, then `save_permanent` (which aborts on an invalid
key, leaving both files untouched). -/
def ConfigState.set_permanent (st : ConfigState) (key value : String) :
    Except String ConfigState :=
  let p' := dinsert st.cfg.permanent key value
  match INIConfigManager.save p' with
  | .error e => .error e
  | .ok f => .ok { st with cfg := { st.cfg with permanent := p' }, permFile := some f }

/-- Model of `PersistentConfig.set_local(key, value)`: assign into the
local dictionary, then `save_local`. -/
def ConfigState.set_local (st : ConfigState) (key value : String) :
    Except String ConfigState :=
  let l' := dinsert st.cfg.local_ key value
  match INIConfigManager.save l' with
  | .error e => .error e
  | .ok f => .ok { st with cfg := { st.cfg with local_ := l' }, localFile := some f }

/-- One entry of a zip archive: a copied file or a written string. -/
inductive ZipEntry where
  | file (sourcePath : String)
  | str (content : String)
  deriving Repr, DecidableEq

/-- The entries of an open zip archive, in write order. -/
abbrev Archive := List (String × ZipEntry)

/-- The value of `Global.manifest_path`. -/
def manifestPath : String := "MANIFEST"

/-- The state of a `Zipper`: exclusion patterns are modelled abstractly by
their `re.search` predicate on the candidate path. -/
structure Zipper where
  output_zip : Option Archive
  output_path : Option String
  manifest : List String
  re_excludes : List (String → Bool)

/-- Model of `Zipper.__init__(*excludes)`. -/
def Zipper.init (excludes : List (String → Bool)) : Zipper :=
  { output_zip := none, output_path := none, manifest := [], re_excludes := excludes }

/-- Model of `Zipper.open(output_path)`: in dry-run mode no archive is
created; otherwise an empty archive is opened for writing. -/
def Zipper.open_zip (z : Zipper) (dryrun : Bool) (path : String) : Zipper :=
  { z with output_path := some path,
           output_zip := if dryrun then none else some [] }

/-- The uncaught Python exception raised by `Zipper.add_file` when the
exclusion loop never ran: `path_in_full` is only assigned inside that
loop, and the `else` clause reads it. -/
def unboundLocalMsg : String :=
  "UnboundLocalError: local variable path_in_full referenced before assignment"

/-- Model of `Zipper.add_file(path_in, path_out)`: each exclusion pattern
is searched against `path_in` (a match skips the file); with no patterns
at all the `for`/`else` clause reads the unassigned `path_in_full` and
raises; otherwise, when an archive is open, the file is written and its
destination appended to the manifest. -/
def Zipper.add_file (z : Zipper) (path_in path_out : String) : Except String Zipper :=
  match z.re_excludes with
  | [] => .error unboundLocalMsg
  | _ :: _ =>
      if z.re_excludes.any (fun re => re path_in) then .ok z
      else
        match z.output_zip with
        | none => .ok z
        | some arch =>
            .ok { z with output_zip := some (arch ++ [(path_out, ZipEntry.file path_in)]),
                         manifest := z.manifest ++ [path_out] }

/-- Model of `Zipper.add_string(s, path_out)`: no exclusion filtering;
when an archive is open the string is written and the destination
appended to the manifest. -/
def Zipper.add_string (z : Zipper) (s path_out : String) : Zipper :=
  match z.output_zip with
  | none => z
  | some arch =>
      { z with output_zip := some (arch ++ [(path_out, ZipEntry.str s)]),
               manifest := z.manifest ++ [path_out] }

/-- Model of `Zipper.close()`: a no-op when no archive was opened,
otherwise the manifest is written as a final `MANIFEST` entry. -/
def Zipper.close (z : Zipper) : Zipper :=
  match z.output_zip with
  | none => z
  | some arch =>
      let entry := (manifestPath, ZipEntry.str (String.intercalate "\n" z.manifest))
      { z with output_zip := some (arch ++ [entry]) }

/-- Model of `os.path.join(dst, rel)` for the relative walk paths of
`add_directory`. -/
def joinPath (dst rel : String) : String :=
  if dst = "" then rel else dst ++ "/" ++ rel

/-- Model of `Zipper.add_directory(path_in, dst, excludes)`: the directory
walk is abstracted as the list of relative file paths it yields, in walk
order.  Each file is passed to `add_file`; note that the `excludes`
argument is never used by the method body. -/
def Zipper.add_directory (z : Zipper) (walk : List String) (dst : String)
    (excludes : List (String → Bool)) : Except String Zipper :=
  match walk with
  | [] => .ok z
  | rel :: rest =>
      match z.add_file rel (joinPath dst rel) with
      | .error e => .error e
      | .ok z' => z'.add_directory rest dst excludes

/-- A call against an open `Zipper`, for stating manifest properties over
call sequences. -/
inductive ZipCall where
  | addFile (path_in path_out : String)
  | addString (s path_out : String)

/-- Run a sequence of `add_file`/`add_string` calls against a `Zipper`. -/
def runCalls (z : Zipper) : List ZipCall → Except String Zipper
  | [] => .ok z
  | c :: rest =>
      match c with
      | .addFile pin pout =>
          match z.add_file pin pout with
          | .error e => .error e
          | .ok z' => runCalls z' rest
      | .addString s pout => runCalls (z.add_string s pout) rest

/-- The destination paths a call sequence is expected to put into the
manifest: every non-excluded `add_file` and every `add_string`, in call
order. -/
def expectedManifest (excludes : List (String → Bool)) : List ZipCall → List String
  | [] => []
  | .addFile pin pout :: rest =>
      if excludes.any (fun re => re pin) then expectedManifest excludes rest
      else pout :: expectedManifest excludes rest
  | .addString _ pout :: rest => pout :: expectedManifest excludes rest

/-- The destinations `add_directory` actually appends to the manifest:
only the constructor-time exclusions are applied. -/
def walkAdds (excludes : List (String → Bool)) (dst : String) (walk : List String) :
    List String :=
  walk.filterMap (fun rel =>
    if excludes.any (fun re => re rel) then none else some (joinPath dst rel))

/-- The archive entries `add_directory` actually writes. -/
def walkEntries (excludes : List (String → Bool)) (dst : String) (walk : List String) :
    Archive :=
  walk.filterMap (fun rel =>
    if excludes.any (fun re => re rel) then none
    else some (joinPath dst rel, ZipEntry.file rel))

/-- Invariant of the save loop: `cur` names the last section added (and is
in the parser), some processed key of that section bounds all remaining
keys from below, no other parser section can recur among the remaining
keys, and the remaining keys are sorted. -/
def SaveInv (cur : Option String) (p : IniFile) (rest : List String) : Prop :=
  (cur = none → p = []) ∧
  (∀ s, cur = some s → s ∈ sections p ∧
    ∃ w, hasDot w = true ∧ sectOf w = s ∧ ∀ k ∈ rest, strLe w k = true) ∧
  (∀ s' ∈ sections p, cur ≠ some s' → ∀ k ∈ rest, hasDot k = true → sectOf k ≠ s') ∧
  List.Pairwise (fun a b => strLe a b = true) rest

/-! Basic lemmas about characters and lexicographic comparison. -/

lemma char_eq_of_toNat_eq {a b : Char} (h : a.toNat = b.toNat) : a = b :=
  Char.eq_of_val_eq (UInt32.toNat.inj h)

lemma lexLe_refl : ∀ xs, lexLe xs xs = true := by
  intro xs
  induction xs with
  | nil => rfl
  | cons a as ih => simp [lexLe, ih]

lemma lexLe_total : ∀ xs ys, lexLe xs ys = true ∨ lexLe ys xs = true := by
  intro xs
  induction xs with
  | nil => intro ys; left; rfl
  | cons a as ih =>
      intro ys
      cases ys with
      | nil => right; rfl
      | cons b bs =>
          rcases Nat.lt_trichotomy a.toNat b.toNat with h | h | h
          · left; simp [lexLe, h]
          · rcases ih bs with h' | h' <;> [left; right] <;>
              simp [lexLe, h, h', Nat.lt_irrefl]
          · right; simp [lexLe, h]

lemma lexLe_trans : ∀ xs ys zs, lexLe xs ys = true → lexLe ys zs = true →
    lexLe xs zs = true := by
  intro xs
  induction xs with
  | nil => intro ys zs _ _; rfl
  | cons a as ih =>
      intro ys zs h1 h2
      cases ys with
      | nil => simp [lexLe] at h1
      | cons b bs =>
          cases zs with
          | nil => simp [lexLe] at h2
          | cons c cs =>
              simp only [lexLe] at h1 h2 ⊢
              by_cases hab1 : a.toNat < b.toNat
              · by_cases hbc1 : b.toNat < c.toNat
                · have : a.toNat < c.toNat := Nat.lt_trans hab1 hbc1
                  simp [this]
                · by_cases hbc2 : c.toNat < b.toNat
                  · simp [hbc1, hbc2] at h2
                  · have : a.toNat < c.toNat := by omega
                    simp [this]
              · by_cases hab2 : b.toNat < a.toNat
                · simp [hab1, hab2] at h1
                · by_cases hbc1 : b.toNat < c.toNat
                  · have : a.toNat < c.toNat := by omega
                    simp [this]
                  · by_cases hbc2 : c.toNat < b.toNat
                    · simp [hbc1, hbc2] at h2
                    · have h1' : lexLe as bs = true := by simpa [hab1, hab2] using h1
                      have h2' : lexLe bs cs = true := by simpa [hbc1, hbc2] using h2
                      have hac1 : ¬ a.toNat < c.toNat := by omega
                      have hac2 : ¬ c.toNat < a.toNat := by omega
                      simp [hac1, hac2, ih bs cs h1' h2']

lemma strLe_total (a b : String) : strLe a b = true ∨ strLe b a = true :=
  lexLe_total a.data b.data

lemma strLe_trans {a b c : String} (h1 : strLe a b = true) (h2 : strLe b c = true) :
    strLe a c = true :=
  lexLe_trans a.data b.data c.data h1 h2

/-! Lemmas about `sortKeys` (insertion sort). -/

lemma insortKey_perm (k : String) : ∀ l, List.Perm (insortKey k l) (k :: l) := by
  intro l
  induction l with
  | nil => exact List.Perm.refl _
  | cons x xs ih =>
      simp only [insortKey]
      split
      · exact List.Perm.refl _
      · exact (List.Perm.cons x ih).trans (List.Perm.swap k x xs)

lemma sortKeys_perm : ∀ l, List.Perm (sortKeys l) l := by
  intro l
  induction l with
  | nil => exact List.Perm.refl _
  | cons x xs ih =>
      have : sortKeys (x :: xs) = insortKey x (sortKeys xs) := rfl
      rw [this]
      exact (insortKey_perm x (sortKeys xs)).trans (List.Perm.cons x ih)

lemma insortKey_sorted (k : String) :
    ∀ l, List.Pairwise (fun a b => strLe a b = true) l →
      List.Pairwise (fun a b => strLe a b = true) (insortKey k l) := by
  intro l
  induction l with
  | nil => intro _; simp [insortKey]
  | cons x xs ih =>
      intro hp
      rcases List.pairwise_cons.mp hp with ⟨hx, hxs⟩
      simp only [insortKey]
      split
      · rename_i hkx
        refine List.pairwise_cons.mpr ⟨?_, hp⟩
        intro b hb
        rcases List.mem_cons.mp hb with rfl | hb'
        · exact hkx
        · exact strLe_trans hkx (hx _ hb')
      · rename_i hkx
        have hxk : strLe x k = true := by
          rcases strLe_total k x with h | h
          · exact absurd h hkx
          · exact h
        refine List.pairwise_cons.mpr ⟨?_, ih hxs⟩
        intro b hb
        have hb' : b ∈ k :: xs := (insortKey_perm k xs).mem_iff.mp hb
        rcases List.mem_cons.mp hb' with rfl | hb''
        · exact hxk
        · exact hx _ hb''

lemma sortKeys_sorted : ∀ l, List.Pairwise (fun a b => strLe a b = true) (sortKeys l) := by
  intro l
  induction l with
  | nil => simp [sortKeys]
  | cons x xs ih => exact insortKey_sorted x (sortKeys xs) ih

/-! Lemmas about splitting keys at the first dot. -/

lemma string_data_inj {s t : String} (h : s.data = t.data) : s = t := by
  cases s; cases t; cases h; rfl

lemma joinKey_data (s n : String) : (joinKey s n).data = s.data ++ '.' :: n.data := rfl

lemma hasDot_iff {k : String} : hasDot k = true ↔ '.' ∈ k.data := by
  simp [hasDot, List.contains, List.elem_iff]

lemma splitAtDot_append (s n : List Char) (hs : '.' ∉ s) :
    splitAtDot (s ++ '.' :: n) = (s, n) := by
  induction s with
  | nil => simp [splitAtDot]
  | cons c cs ih =>
      have hc : c ≠ '.' := fun h => hs (by simp [h])
      have hcs : '.' ∉ cs := fun h => hs (List.mem_cons_of_mem _ h)
      simp [splitAtDot, hc, ih hcs]

lemma splitAtDot_spec : ∀ l : List Char, '.' ∈ l →
    '.' ∉ (splitAtDot l).1 ∧ (splitAtDot l).1 ++ '.' :: (splitAtDot l).2 = l := by
  intro l
  induction l with
  | nil => intro h; simp at h
  | cons c cs ih =>
      intro h
      by_cases hc : c = '.'
      · subst hc; simp [splitAtDot]
      · have h' : '.' ∈ cs := by
          rcases List.mem_cons.mp h with h'' | h''
          · exact absurd h''.symm hc
          · exact h''
        rcases ih h' with ⟨h1, h2⟩
        refine ⟨?_, ?_⟩
        · simp only [splitAtDot, if_neg hc]
          intro hmem
          rcases List.mem_cons.mp hmem with h'' | h''
          · exact hc h''.symm
          · exact h1 h''
        · simp only [splitAtDot, if_neg hc]
          simpa using h2

lemma joinKey_sect_name {k : String} (hk : hasDot k = true) :
    joinKey (sectOf k) (nameOf k) = k ∧ '.' ∉ (sectOf k).data := by
  have h := splitAtDot_spec k.data (hasDot_iff.mp hk)
  refine ⟨string_data_inj ?_, h.1⟩
  rw [joinKey_data]
  exact h.2

lemma sectOf_joinKey {s : String} (n : String) (hs : '.' ∉ s.data) :
    sectOf (joinKey s n) = s := by
  simp [sectOf, joinKey_data, splitAtDot_append s.data n.data hs]

lemma nameOf_joinKey {s : String} (n : String) (hs : '.' ∉ s.data) :
    nameOf (joinKey s n) = n := by
  simp [nameOf, joinKey_data, splitAtDot_append s.data n.data hs]

lemma hasDot_joinKey (s n : String) : hasDot (joinKey s n) = true := by
  rw [hasDot_iff, joinKey_data]
  simp

/-! The sandwich lemma: under byte-wise ordering, two dotted keys of the
same section can never surround a dotted key of a different section. -/

lemma lexLe_sandwich :
    ∀ xs ys a b a' b' : List Char, '.' ∉ xs → '.' ∉ ys → xs ≠ ys →
      lexLe (xs ++ '.' :: a) (ys ++ '.' :: b) = true →
      lexLe (ys ++ '.' :: b') (xs ++ '.' :: a') = true → False := by
  intro xs
  induction xs with
  | nil =>
      intro ys a b a' b' _ hys hne h1 h2
      cases ys with
      | nil => exact hne rfl
      | cons d ds =>
          have hd : d ≠ '.' := fun h => hys (by simp [h])
          have hdn : d.toNat ≠ '.'.toNat := fun h => hd (char_eq_of_toNat_eq h)
          simp only [List.nil_append, List.cons_append, lexLe] at h1 h2
          by_cases hlt : '.'.toNat < d.toNat
          · have h1' : ¬ d.toNat < '.'.toNat := by omega
            rw [if_neg h1', if_pos hlt] at h2
            exact Bool.false_ne_true h2
          · have h2' : d.toNat < '.'.toNat := by omega
            rw [if_neg hlt, if_pos h2'] at h1
            exact Bool.false_ne_true h1
  | cons c cs ih =>
      intro ys a b a' b' hxs hys hne h1 h2
      cases ys with
      | nil =>
          have hc : c ≠ '.' := fun h => hxs (by simp [h])
          have hcn : c.toNat ≠ '.'.toNat := fun h => hc (char_eq_of_toNat_eq h)
          simp only [List.nil_append, List.cons_append, lexLe] at h1 h2
          by_cases hlt : '.'.toNat < c.toNat
          · have h1' : ¬ c.toNat < '.'.toNat := by omega
            rw [if_neg h1', if_pos hlt] at h1
            exact Bool.false_ne_true h1
          · have h2' : c.toNat < '.'.toNat := by omega
            rw [if_neg hlt, if_pos h2'] at h2
            exact Bool.false_ne_true h2
      | cons d ds =>
          simp only [List.cons_append, lexLe] at h1 h2
          by_cases hcd : c.toNat < d.toNat
          · have h' : ¬ d.toNat < c.toNat := by omega
            simp [hcd, h'] at h2
          · by_cases hdc : d.toNat < c.toNat
            · simp [hcd, hdc] at h1
            · have hceq : c = d := char_eq_of_toNat_eq (by omega)
              subst hceq
              have hcs : '.' ∉ cs := fun h => hxs (List.mem_cons_of_mem _ h)
              have hds : '.' ∉ ds := fun h => hys (List.mem_cons_of_mem _ h)
              have hne' : cs ≠ ds := fun h => hne (by rw [h])
              have h1' : lexLe (cs ++ '.' :: a) (ds ++ '.' :: b) = true := by
                simpa [hcd, hdc] using h1
              have h2' : lexLe (ds ++ '.' :: b') (cs ++ '.' :: a') = true := by
                simpa [hcd, hdc] using h2
              exact ih ds a b a' b' hcs hds hne' h1' h2'

lemma strLe_sandwich {s t a b a' b' : String}
    (hs : '.' ∉ s.data) (ht : '.' ∉ t.data) (hne : s ≠ t)
    (h1 : strLe (joinKey s a) (joinKey t b) = true)
    (h2 : strLe (joinKey t b') (joinKey s a') = true) : False :=
  lexLe_sandwich s.data t.data a.data b.data a'.data b'.data hs ht
    (fun h => hne (string_data_inj h)) h1 h2

/-! Lemmas about the dictionary model. -/

lemma dmem_iff {d : Dict} {k : String} : dmem d k = true ↔ k ∈ d.map Prod.fst := by
  induction d with
  | nil => simp [dmem]
  | cons q rest ih =>
      simp only [dmem, List.any_cons, List.map_cons, List.mem_cons, Bool.or_eq_true,
        beq_iff_eq]
      rw [dmem] at ih
      constructor
      · rintro (h | h)
        · exact Or.inl h.symm
        · exact Or.inr (ih.mp h)
      · rintro (h | h)
        · exact Or.inl h.symm
        · exact Or.inr (ih.mpr h)

lemma dget_eq_none {d : Dict} {k : String} (h : k ∉ d.map Prod.fst) :
    dget d k = none := by
  induction d with
  | nil => rfl
  | cons q rest ih =>
      have h1 : q.1 ≠ k := by
        intro he
        exact h (by simp [he])
      have h2 : k ∉ rest.map Prod.fst := fun hm => h (by simp [hm])
      cases q with
      | mk k' v => simpa [dget, h1] using ih h2

lemma dget_mem {d : Dict} {k v : String} (h : dget d k = some v) : (k, v) ∈ d := by
  induction d with
  | nil => simp [dget] at h
  | cons q rest ih =>
      cases q with
      | mk k' v' =>
          by_cases he : k' = k
          · subst he
            simp [dget] at h
            simp [h]
          · simp [dget, he] at h
            exact List.mem_cons_of_mem _ (ih h)

lemma mem_keys_dinsert {d : Dict} {k a : String} (v : String) :
    a ∈ (dinsert d k v).map Prod.fst ↔ a = k ∨ a ∈ d.map Prod.fst := by
  induction d with
  | nil => simp [dinsert]
  | cons q rest ih =>
      cases q with
      | mk k' v' =>
          by_cases he : k' = k
          · subst he
            have hstep : dinsert ((k', v') :: rest) k' v = (k', v) :: rest := by
              simp [dinsert]
            rw [hstep]
            simp only [List.map_cons, List.mem_cons]
            tauto
          · simp only [dinsert, if_neg he, List.map_cons, List.mem_cons, ih]
            tauto

/-! Lemmas about the INI parser operations. -/

lemma addSection_ok {p : IniFile} {s : String} (hdef : lowerStr s ≠ "default")
    (h : s ∉ sections p) :
    addSection p s = .ok (p ++ [(s, [])]) := by
  simp [addSection, hdef, h]

lemma sections_append_single (p : IniFile) (s : String) :
    sections (p ++ [(s, [])]) = sections p ++ [s] := by
  simp [sections]

lemma parserSetRaw_ok {p : IniFile} {s : String} (n v : String) (h : s ∈ sections p) :
    ∃ p', parserSetRaw p s n v = .ok p' := by
  induction p with
  | nil => simp [sections] at h
  | cons sec rest ih =>
      cases sec with
      | mk s' opts =>
          by_cases he : s' = s
          · subst he
            exact ⟨(s', dinsert opts n v) :: rest, by simp [parserSetRaw]⟩
          · have h' : s ∈ sections rest := by
              rcases List.mem_cons.mp h with h'' | h''
              · exact absurd h''.symm he
              · exact h''
            rcases ih h' with ⟨r, hr⟩
            exact ⟨(s', opts) :: r, by simp [parserSetRaw, he, hr, Except.map]⟩

lemma parserSet_ok {p : IniFile} {s : String} (n v : String) (h : s ∈ sections p)
    (hval : percentOk v = true) :
    ∃ p', parserSet p s n v = .ok p' := by
  rcases parserSetRaw_ok n v h with ⟨p', hp'⟩
  exact ⟨p', by simp [parserSet, hval, hp']⟩

lemma sections_parserSetRaw {p p' : IniFile} {s n v : String}
    (h : parserSetRaw p s n v = .ok p') : sections p' = sections p := by
  induction p generalizing p' with
  | nil => simp [parserSetRaw] at h
  | cons sec rest ih =>
      cases sec with
      | mk s' opts =>
          by_cases he : s' = s
          · subst he
            simp [parserSetRaw] at h
            subst h
            simp [sections]
          · simp only [parserSetRaw, if_neg he] at h
            cases hr : parserSetRaw rest s n v with
            | error e => rw [hr] at h; simp [Except.map] at h
            | ok r =>
                rw [hr] at h
                simp [Except.map] at h
                subst h
                have h2 := ih hr
                simp only [sections] at h2 ⊢
                simp [h2]

lemma sections_parserSet {p p' : IniFile} {s n v : String}
    (h : parserSet p s n v = .ok p') : sections p' = sections p := by
  by_cases hval : percentOk v = true
  · rw [parserSet, if_pos hval] at h
    exact sections_parserSetRaw h
  · rw [parserSet, if_neg hval] at h
    cases h

/-! The invariant of the key loop of `INIConfigManager.save`, and the loop
lemmas.  The essential fact is that on a sorted key list equal sections
are contiguous, so `add_section` never sees a duplicate. -/

lemma saveStep_ok (d : Dict) {cur : Option String} {p : IniFile} {key : String}
    {rest : List String} (hinv : SaveInv cur p (key :: rest)) (hk : hasDot key = true)
    (hval : percentOk ((dget d key).getD "") = true)
    (hdef : lowerStr (sectOf key) ≠ "default") :
    ∃ p', saveStep d cur p key = .ok (some (sectOf key), p') ∧
      SaveInv (some (sectOf key)) p' rest := by
  obtain ⟨h1, h2, h3, h4⟩ := hinv
  have hpair : ∀ k ∈ rest, strLe key k = true := (List.pairwise_cons.mp h4).1
  have h4tail : List.Pairwise (fun a b => strLe a b = true) rest :=
    (List.pairwise_cons.mp h4).2
  by_cases hcur : cur = some (sectOf key)
  · rcases h2 _ hcur with ⟨hsec, -⟩
    rcases parserSet_ok (lowerStr (nameOf key)) ((dget d key).getD "") hsec hval
      with ⟨p', hp'⟩
    refine ⟨p', ?_, ?_, ?_, ?_, h4tail⟩
    · simp [saveStep, hk, hcur, hp', Except.map]
    · intro h; cases h
    · intro s0 he
      have he0 : sectOf key = s0 := by injection he
      subst he0
      rw [sections_parserSet hp']
      exact ⟨hsec, key, hk, rfl, hpair⟩
    · rw [sections_parserSet hp']
      intro s' hs' hne k hkrest hkdot
      refine h3 s' hs' ?_ k (List.mem_cons_of_mem _ hkrest) hkdot
      rw [hcur]
      exact hne
  · have hnotin : sectOf key ∉ sections p := by
      intro hin
      exact h3 _ hin hcur key (List.mem_cons_self _ _) hk rfl
    have hadd : addSection p (sectOf key) = .ok (p ++ [(sectOf key, [])]) :=
      addSection_ok hdef hnotin
    have hsec1 : sectOf key ∈ sections (p ++ [(sectOf key, [])]) := by
      rw [sections_append_single]
      simp
    rcases parserSet_ok (lowerStr (nameOf key)) ((dget d key).getD "") hsec1 hval
      with ⟨p', hp'⟩
    refine ⟨p', ?_, ?_, ?_, ?_, h4tail⟩
    · simp [saveStep, hk, hcur, hadd, hp', Except.map]
    · intro h; cases h
    · intro s0 he
      have he0 : sectOf key = s0 := by injection he
      subst he0
      rw [sections_parserSet hp', sections_append_single]
      exact ⟨by simp, key, hk, rfl, hpair⟩
    · rw [sections_parserSet hp', sections_append_single]
      intro s' hs' hne k' hk'rest hk'dot hk'sect
      have hne' : s' ≠ sectOf key := by
        intro he
        exact hne (by rw [he])
      have hs'p : s' ∈ sections p := by
        rcases List.mem_append.mp hs' with h | h
        · exact h
        · simp at h
          exact absurd h hne'
      cases hc : cur with
      | none =>
          rw [h1 hc] at hs'p
          simp [sections] at hs'p
      | some t =>
          by_cases hst : s' = t
          · subst hst
            rcases h2 s' hc with ⟨-, w, hwdot, hwsect, hwle⟩
            obtain ⟨hweq, hwnd⟩ := joinKey_sect_name hwdot
            obtain ⟨hkeq, hknd⟩ := joinKey_sect_name hk
            obtain ⟨hk'eq, hk'nd⟩ := joinKey_sect_name hk'dot
            rw [hwsect] at hweq hwnd
            rw [hk'sect] at hk'eq hk'nd
            have hle1 : strLe w key = true := hwle key (List.mem_cons_self _ _)
            have hle2 : strLe key k' = true := hpair k' hk'rest
            rw [← hweq, ← hkeq] at hle1
            rw [← hkeq, ← hk'eq] at hle2
            have hts : s' ≠ sectOf key := hne'
            exact strLe_sandwich hwnd hknd hts hle1 hle2
          · refine h3 s' hs'p ?_ k' (List.mem_cons_of_mem _ hk'rest) hk'dot hk'sect
            rw [hc]
            intro he
            have : t = s' := by injection he
            exact hst this.symm

lemma saveLoop_run (d : Dict) :
    ∀ (rest : List String) (cur : Option String) (p : IniFile), SaveInv cur p rest →
      (∀ k ∈ rest, hasDot k = true →
        percentOk ((dget d k).getD "") = true ∧ lowerStr (sectOf k) ≠ "default") →
      (match rest.find? (fun k => !hasDot k) with
        | some k0 => saveLoop d rest cur p = .error (keyErrMsg k0)
        | none => ∃ f, saveLoop d rest cur p = .ok f) := by
  intro rest
  induction rest with
  | nil => intro cur p _ _; exact ⟨p, rfl⟩
  | cons key rest ih =>
      intro cur p hinv hgood
      by_cases hk : hasDot key = true
      · have hfind : (key :: rest).find? (fun k => !hasDot k)
            = rest.find? (fun k => !hasDot k) := by
          simp [List.find?, hk]
        rcases saveStep_ok d hinv hk
            (hgood key (List.mem_cons_self _ _) hk).1
            (hgood key (List.mem_cons_self _ _) hk).2 with ⟨p', hstep, hinv'⟩
        have hloop : saveLoop d (key :: rest) cur p
            = saveLoop d rest (some (sectOf key)) p' := by
          simp [saveLoop, hstep]
        rw [hfind, hloop]
        exact ih (some (sectOf key)) p' hinv'
          (fun k hkm hkd => hgood k (List.mem_cons_of_mem _ hkm) hkd)
      · have hk' : hasDot key = false := by
          cases h : hasDot key
          · rfl
          · exact absurd h hk
        have hfind : (key :: rest).find? (fun k => !hasDot k) = some key := by
          simp [List.find?, hk']
        rw [hfind]
        show saveLoop d (key :: rest) cur p = .error (keyErrMsg key)
        simp [saveLoop, saveStep, hk']

lemma SaveInv_init (keys : List String) : SaveInv none [] (sortKeys keys) := by
  refine ⟨fun _ => rfl, ?_, ?_, sortKeys_sorted keys⟩
  · intro s h
    cases h
  · intro s' hs'
    simp [sections] at hs'

lemma save_never_ok (d : Dict) : ∃ e, INIConfigManager.save d = .error e := by
  unfold INIConfigManager.save
  cases hl : saveLoop d (sortKeys (d.map Prod.fst)) none [] with
  | error e => exact ⟨e, rfl⟩
  | ok f => exact ⟨fileWriterErrMsg, rfl⟩

lemma save_err {d : Dict} (hbad : ∃ k ∈ d.map Prod.fst, hasDot k = false)
    (hgood : ∀ k ∈ d.map Prod.fst, hasDot k = true →
      percentOk ((dget d k).getD "") = true ∧ lowerStr (sectOf k) ≠ "default") :
    ∃ k0, hasDot k0 = false ∧ k0 ∈ d.map Prod.fst ∧
      INIConfigManager.save d = .error (keyErrMsg k0) := by
  obtain ⟨k0, hfind⟩ : ∃ k0,
      (sortKeys (d.map Prod.fst)).find? (fun k => !hasDot k) = some k0 := by
    cases hfd : (sortKeys (d.map Prod.fst)).find? (fun k => !hasDot k) with
    | none =>
        rcases hbad with ⟨k, hkmem, hkbad⟩
        have hks : k ∈ sortKeys (d.map Prod.fst) := (sortKeys_perm _).mem_iff.mpr hkmem
        have := List.find?_eq_none.mp hfd k hks
        simp [hkbad] at this
    | some k0 => exact ⟨k0, rfl⟩
  have hk0bad : hasDot k0 = false := by
    have := List.find?_some hfind
    simpa using this
  have hk0mem : k0 ∈ d.map Prod.fst :=
    (sortKeys_perm _).mem_iff.mp (List.mem_of_find?_eq_some hfind)
  have h := saveLoop_run d (sortKeys (d.map Prod.fst)) none [] (SaveInv_init _)
    (fun k hkm hkd => hgood k ((sortKeys_perm _).mem_iff.mp hkm) hkd)
  rw [hfind] at h
  refine ⟨k0, hk0bad, hk0mem, ?_⟩
  unfold INIConfigManager.save
  rw [h]

/-! Lemmas about ASCII lowercasing and `INIConfigManager.load`. -/

lemma char_toNat_ofNat {n : Nat} (h : n.isValidChar) : (Char.ofNat n).toNat = n := by
  unfold Char.ofNat
  rw [dif_pos h]
  rfl

lemma lowerChar_idem (c : Char) : lowerChar (lowerChar c) = lowerChar c := by
  by_cases h : 65 ≤ c.toNat ∧ c.toNat ≤ 90
  · have h1 : lowerChar c = Char.ofNat (c.toNat + 32) := by
      unfold lowerChar
      rw [if_pos h]
    have ht : (Char.ofNat (c.toNat + 32)).toNat = c.toNat + 32 :=
      char_toNat_ofNat (Or.inl (by omega))
    rw [h1]
    unfold lowerChar
    rw [if_neg (by rw [ht]; omega)]
  · have h1 : lowerChar c = c := by
      unfold lowerChar
      rw [if_neg h]
    rw [h1, h1]

lemma lowerStr_idem (s : String) : lowerStr (lowerStr s) = lowerStr s := by
  unfold lowerStr
  congr 1
  show (s.data.map lowerChar).map lowerChar = s.data.map lowerChar
  rw [List.map_map]
  congr 1
  funext c
  exact lowerChar_idem c

lemma foldl_dinsert_keys :
    ∀ (L : Dict) (acc : Dict) (k : String),
      k ∈ ((L.foldl (fun a q => dinsert a q.1 q.2) acc).map Prod.fst) →
      k ∈ acc.map Prod.fst ∨ k ∈ L.map Prod.fst := by
  intro L
  induction L with
  | nil => intro acc k h; exact Or.inl h
  | cons q rest ih =>
      intro acc k h
      rcases ih (dinsert acc q.1 q.2) k h with h' | h'
      · rcases (mem_keys_dinsert q.2).mp h' with h'' | h''
        · right; simp [h'']
        · left; exact h''
      · right; simp [h']

/-! Lemmas about the `Zipper` operations. -/

lemma add_file_empty {z : Zipper} (pin pout : String) (h : z.re_excludes = []) :
    z.add_file pin pout = .error unboundLocalMsg := by
  unfold Zipper.add_file
  rw [h]

lemma add_file_skip {z : Zipper} (pin pout : String) (hex : z.re_excludes ≠ [])
    (hmatch : z.re_excludes.any (fun re => re pin) = true) :
    z.add_file pin pout = .ok z := by
  unfold Zipper.add_file
  cases hre : z.re_excludes with
  | nil => exact absurd hre hex
  | cons p ps =>
      rw [hre] at hmatch
      simp [hmatch]

lemma add_file_closed {z : Zipper} (pin pout : String) (hex : z.re_excludes ≠ [])
    (hmatch : z.re_excludes.any (fun re => re pin) = false)
    (hzip : z.output_zip = none) :
    z.add_file pin pout = .ok z := by
  unfold Zipper.add_file
  cases hre : z.re_excludes with
  | nil => exact absurd hre hex
  | cons p ps =>
      rw [hre] at hmatch
      simp [hmatch, hzip]

lemma add_file_write {z : Zipper} {arch : Archive} (pin pout : String)
    (hex : z.re_excludes ≠ [])
    (hmatch : z.re_excludes.any (fun re => re pin) = false)
    (hzip : z.output_zip = some arch) :
    z.add_file pin pout
      = .ok { z with output_zip := some (arch ++ [(pout, ZipEntry.file pin)]),
                     manifest := z.manifest ++ [pout] } := by
  unfold Zipper.add_file
  cases hre : z.re_excludes with
  | nil => exact absurd hre hex
  | cons p ps =>
      rw [hre] at hmatch
      simp [hmatch, hzip]

lemma add_string_none {z : Zipper} (s pout : String) (hzip : z.output_zip = none) :
    z.add_string s pout = z := by
  unfold Zipper.add_string
  rw [hzip]

lemma add_string_write {z : Zipper} {arch : Archive} (s pout : String)
    (hzip : z.output_zip = some arch) :
    z.add_string s pout
      = { z with output_zip := some (arch ++ [(pout, ZipEntry.str s)]),
                 manifest := z.manifest ++ [pout] } := by
  unfold Zipper.add_string
  rw [hzip]

lemma close_none {z : Zipper} (hzip : z.output_zip = none) : z.close = z := by
  unfold Zipper.close
  rw [hzip]

lemma runCalls_spec :
    ∀ (calls : List ZipCall) (z z' : Zipper),
      z.output_zip.isSome = true → runCalls z calls = .ok z' →
      z'.manifest = z.manifest ++ expectedManifest z.re_excludes calls ∧
      z'.output_zip.isSome = true ∧ z'.re_excludes = z.re_excludes := by
  intro calls
  induction calls with
  | nil =>
      intro z z' hz h
      simp [runCalls] at h
      subst h
      exact ⟨by simp [expectedManifest], hz, rfl⟩
  | cons c rest ih =>
      intro z z' hz h
      cases c with
      | addFile pin pout =>
          have hex : z.re_excludes ≠ [] := by
            intro hre
            rw [runCalls, add_file_empty pin pout hre] at h
            cases h
          cases harch : z.output_zip with
          | none => rw [harch] at hz; simp at hz
          | some arch =>
              by_cases hmatch : z.re_excludes.any (fun re => re pin) = true
              · rw [runCalls, add_file_skip pin pout hex hmatch] at h
                obtain ⟨h1, h2, h3⟩ := ih z z' hz h
                refine ⟨?_, h2, h3⟩
                rw [h1, expectedManifest, if_pos hmatch]
              · have hmatch' : z.re_excludes.any (fun re => re pin) = false := by
                  cases hm : z.re_excludes.any (fun re => re pin)
                  · rfl
                  · exact absurd hm hmatch
                rw [runCalls, add_file_write pin pout hex hmatch' harch] at h
                obtain ⟨h1, h2, h3⟩ := ih
                  { z with output_zip := some (arch ++ [(pout, ZipEntry.file pin)]),
                           manifest := z.manifest ++ [pout] } z' rfl h
                refine ⟨?_, h2, by simpa using h3⟩
                rw [h1]
                show z.manifest ++ [pout] ++ expectedManifest z.re_excludes rest = _
                rw [expectedManifest, if_neg (by simp [hmatch']), List.append_assoc,
                  List.singleton_append]
      | addString s pout =>
          cases harch : z.output_zip with
          | none => rw [harch] at hz; simp at hz
          | some arch =>
              rw [runCalls, add_string_write s pout harch] at h
              obtain ⟨h1, h2, h3⟩ := ih
                { z with output_zip := some (arch ++ [(pout, ZipEntry.str s)]),
                         manifest := z.manifest ++ [pout] } z' rfl h
              refine ⟨?_, h2, by simpa using h3⟩
              rw [h1]
              show z.manifest ++ [pout] ++ expectedManifest z.re_excludes rest = _
              rw [expectedManifest, List.append_assoc, List.singleton_append]

lemma walkAdds_cons (excl : List (String → Bool)) (dst rel : String)
    (rest : List String) :
    walkAdds excl dst (rel :: rest)
      = if excl.any (fun re => re rel) then walkAdds excl dst rest
        else joinPath dst rel :: walkAdds excl dst rest := by
  simp only [walkAdds, List.filterMap_cons]
  by_cases h : excl.any (fun re => re rel) = true
  · rw [if_pos h, if_pos h]
  · rw [if_neg h, if_neg h]

lemma walkEntries_cons (excl : List (String → Bool)) (dst rel : String)
    (rest : List String) :
    walkEntries excl dst (rel :: rest)
      = if excl.any (fun re => re rel) then walkEntries excl dst rest
        else (joinPath dst rel, ZipEntry.file rel) :: walkEntries excl dst rest := by
  simp only [walkEntries, List.filterMap_cons]
  by_cases h : excl.any (fun re => re rel) = true
  · rw [if_pos h, if_pos h]
  · rw [if_neg h, if_neg h]

lemma add_directory_spec :
    ∀ (walk : List String) (z : Zipper) (dst : String)
      (perCall : List (String → Bool)) (arch : Archive),
      z.output_zip = some arch → z.re_excludes ≠ [] →
      ∃ z', z.add_directory walk dst perCall = .ok z' ∧
        z'.manifest = z.manifest ++ walkAdds z.re_excludes dst walk ∧
        z'.output_zip = some (arch ++ walkEntries z.re_excludes dst walk) ∧
        z'.re_excludes = z.re_excludes := by
  intro walk
  induction walk with
  | nil =>
      intro z dst perCall arch hz hex
      exact ⟨z, rfl, by simp [walkAdds], by simp [walkEntries, hz], rfl⟩
  | cons rel rest ih =>
      intro z dst perCall arch hz hex
      by_cases hmatch : z.re_excludes.any (fun re => re rel) = true
      · rcases ih z dst perCall arch hz hex with ⟨z', h1, h2, h3, h4⟩
        refine ⟨z', ?_, ?_, ?_, h4⟩
        · rw [Zipper.add_directory, add_file_skip _ _ hex hmatch]
          exact h1
        · rw [h2, walkAdds_cons, if_pos hmatch]
        · rw [h3, walkEntries_cons, if_pos hmatch]
      · have hmatch' : z.re_excludes.any (fun re => re rel) = false := by
          cases hm : z.re_excludes.any (fun re => re rel)
          · rfl
          · exact absurd hm hmatch
        rcases ih
            { z with output_zip := some (arch ++ [(joinPath dst rel, ZipEntry.file rel)]),
                     manifest := z.manifest ++ [joinPath dst rel] }
            dst perCall (arch ++ [(joinPath dst rel, ZipEntry.file rel)]) rfl hex
          with ⟨z', h1, h2, h3, h4⟩
        refine ⟨z', ?_, ?_, ?_, by simpa using h4⟩
        · rw [Zipper.add_directory, add_file_write _ _ hex hmatch' hz]
          exact h1
        · rw [h2]
          show z.manifest ++ [joinPath dst rel]
              ++ walkAdds z.re_excludes dst rest = _
          rw [walkAdds_cons, if_neg (by simp [hmatch']), List.append_assoc,
            List.singleton_append]
        · rw [h3]
          show some ((arch ++ [(joinPath dst rel, ZipEntry.file rel)])
              ++ walkEntries z.re_excludes dst rest) = _
          rw [walkEntries_cons, if_neg (by simp [hmatch']), List.append_assoc,
            List.singleton_append]

/-! Remaining helper lemmas for the claim theorems. -/

lemma dget_isSome_of_mem {d : Dict} {k : String} (h : k ∈ d.map Prod.fst) :
    ∃ v, dget d k = some v := by
  induction d with
  | nil => simp at h
  | cons q rest ih =>
      cases q with
      | mk k' v' =>
          by_cases he : k' = k
          · exact ⟨v', by simp [dget, he]⟩
          · have h' : k ∈ rest.map Prod.fst := by
              rw [List.map_cons] at h
              rcases List.mem_cons.mp h with h'' | h''
              · exact absurd h''.symm he
              · exact h''
            rcases ih h' with ⟨v, hv⟩
            exact ⟨v, by simp [dget, he, hv]⟩

lemma not_dot_of_hasDot_false {s : String} (h : hasDot s = false) : '.' ∉ s.data := by
  intro hm
  have h2 := hasDot_iff.mpr hm
  rw [h2] at h
  cases h

/-! The claim theorems. -/

/-- Claim C1 (code bug): `PersistentConfig.query` is specified to return
the merged local-over-permanent map, but whenever a permanent-tier key
matching the filter is absent from the collected results the code assigns
into the never-initialized attribute `self.results` and raises
`AttributeError` — with a filtering prefix and with an absent filter
alike.  Only when every qualifying permanent key is shadowed by the local
tier does a result come back, and it then contains no permanent-only
entry. -/
theorem c1_query_uninitialized_results_error :
    PersistentConfig.query ⟨[("a.x", "1")], []⟩ (some "a.") = Except.error attrErrMsg ∧
    PersistentConfig.query ⟨[("a.x", "1")], []⟩ none = Except.error attrErrMsg ∧
    PersistentConfig.query ⟨[], [("a.x", "1")]⟩ (some "a.") = Except.ok [("a.x", "1")] :=
  ⟨rfl, rfl, rfl⟩

/-- Claim C3 (confirmed): `get` returns the local tier's value whenever
the key is in the local tier, falls back to the permanent tier's value
when only that tier has the key, and returns `None` when neither does. -/
theorem c3_get_merge_precedence (cfg : PersistentConfig) (key : String) :
    (∀ v, dget cfg.local_ key = some v → cfg.get key = some v) ∧
    (dget cfg.local_ key = none →
      ∀ v, dget cfg.permanent key = some v → cfg.get key = some v) ∧
    (dget cfg.local_ key = none → dget cfg.permanent key = none →
      cfg.get key = none) := by
  refine ⟨?_, ?_, ?_⟩
  · intro v hv
    have hm : dmem cfg.local_ key = true := by
      rw [dmem_iff]
      exact List.mem_map.mpr ⟨(key, v), dget_mem hv, rfl⟩
    simp [PersistentConfig.get, hm, hv]
  · intro hnone v hv
    have hm : dmem cfg.local_ key = false := by
      cases hdm : dmem cfg.local_ key
      · rfl
      · rcases dget_isSome_of_mem (dmem_iff.mp hdm) with ⟨v', hv'⟩
        rw [hv'] at hnone
        cases hnone
    simp [PersistentConfig.get, hm, hv]
  · intro hnone hnone'
    have hm : dmem cfg.local_ key = false := by
      cases hdm : dmem cfg.local_ key
      · rfl
      · rcases dget_isSome_of_mem (dmem_iff.mp hdm) with ⟨v', hv'⟩
        rw [hv'] at hnone
        cases hnone
    simp [PersistentConfig.get, hm, hnone']

/-- Witness for C3 at a concrete two-tier configuration. -/
theorem c3_get_merge_precedence_witness :
    PersistentConfig.get ⟨[("volt.port", "21212"), ("c.d", "3")], [("volt.port", "21311")]⟩
        "volt.port" = some "21311" ∧
    PersistentConfig.get ⟨[("volt.port", "21212"), ("c.d", "3")], [("volt.port", "21311")]⟩
        "c.d" = some "3" ∧
    PersistentConfig.get ⟨[("volt.port", "21212"), ("c.d", "3")], [("volt.port", "21311")]⟩
        "z.z" = none :=
  ⟨(c3_get_merge_precedence
      ⟨[("volt.port", "21212"), ("c.d", "3")], [("volt.port", "21311")]⟩
      "volt.port").1 "21311" rfl,
   (c3_get_merge_precedence
      ⟨[("volt.port", "21212"), ("c.d", "3")], [("volt.port", "21311")]⟩
      "c.d").2.1 rfl "3" rfl,
   (c3_get_merge_precedence
      ⟨[("volt.port", "21212"), ("c.d", "3")], [("volt.port", "21311")]⟩
      "z.z").2.2 rfl rfl⟩

/-- Claim C5, counterexample: the `excludes` argument of `add_directory`
is never used by the method body, so a file whose path matches only a
per-call exclusion pattern is still added — here `foo` matches the
per-call pattern yet ends up in the manifest as `d/foo`. -/
theorem c5_exclusion_counterexample :
    ((fun s => s == "foo") "foo" = true) ∧
    (((Zipper.init [fun s => s == "zzz"]).open_zip false "out.zip").add_directory
        ["foo"] "d" [fun s => s == "foo"]).map Zipper.manifest
      = Except.ok ["d/foo"] :=
  ⟨rfl, rfl⟩

/-- Claim C5 as amended: `add_directory` filters only through the
constructor-time exclusion patterns, each tested against the walked
source path as passed (not a resolved path), and the per-call `excludes`
argument is ignored entirely: with at least one constructor pattern the
walk succeeds and adds to the archive and manifest exactly the
non-excluded files, whatever `perCall` is. -/
theorem c5_exclusion_amended (z : Zipper) (walk : List String) (dst : String)
    (perCall : List (String → Bool)) (arch : Archive)
    (hz : z.output_zip = some arch) (hex : z.re_excludes ≠ []) :
    ∃ z', z.add_directory walk dst perCall = Except.ok z' ∧
      z'.manifest = z.manifest ++ walkAdds z.re_excludes dst walk ∧
      z'.output_zip = some (arch ++ walkEntries z.re_excludes dst walk) ∧
      z'.re_excludes = z.re_excludes :=
  add_directory_spec walk z dst perCall arch hz hex

/-- Witness for the amended C5: one constructor pattern, a matching and a
non-matching file, and an arbitrary (ignored) per-call pattern list. -/
theorem c5_exclusion_amended_witness :
    ∃ z', Zipper.add_directory
        ((Zipper.init [fun s => s == "skip"]).open_zip false "out.zip")
        ["skip", "keep"] "d" [fun s => s == "keep"] = Except.ok z' ∧
      z'.manifest = [] ++ walkAdds [fun s => s == "skip"] "d" ["skip", "keep"] ∧
      z'.output_zip = some ([] ++ walkEntries [fun s => s == "skip"] "d" ["skip", "keep"]) ∧
      z'.re_excludes = [fun s => s == "skip"] :=
  c5_exclusion_amended ((Zipper.init [fun s => s == "skip"]).open_zip false "out.zip")
    ["skip", "keep"] "d" [fun s => s == "keep"] [] rfl (List.cons_ne_nil _ _)

/-- Claim C6 (confirmed): after any successful sequence of `add_file` and
`add_string` calls against an open, non-dry-run `Zipper`, the manifest is
exactly the destination paths of the non-excluded `add_file` calls and of
all `add_string` calls in call order, and `close` writes that list, one
entry per line, as the final `MANIFEST` archive entry. -/
theorem c6_manifest_complete (excludes : List (String → Bool)) (path : String)
    (calls : List ZipCall) (z' : Zipper)
    (h : runCalls ((Zipper.init excludes).open_zip false path) calls = Except.ok z') :
    z'.manifest = expectedManifest excludes calls ∧
    ∃ arch, z'.close.output_zip
      = some (arch ++ [(manifestPath,
          ZipEntry.str (String.intercalate "\n" (expectedManifest excludes calls)))]) := by
  have h0 : ((Zipper.init excludes).open_zip false path).output_zip.isSome = true := rfl
  obtain ⟨hm, hsome, hre⟩ := runCalls_spec calls _ z' h0 h
  have hm' : z'.manifest = expectedManifest excludes calls := by simpa using hm
  refine ⟨hm', ?_⟩
  cases harch : z'.output_zip with
  | none => rw [harch] at hsome; simp at hsome
  | some arch =>
      refine ⟨arch, ?_⟩
      unfold Zipper.close
      rw [harch, hm']

/-- Witness for C6: a skipped file, an added file and an added string. -/
theorem c6_manifest_complete_witness :
    (⟨some [("d/a", ZipEntry.file "a"), ("d/h", ZipEntry.str "hello")], some "out.zip",
        ["d/a", "d/h"], [fun s => s == "skip"]⟩ : Zipper).manifest
      = expectedManifest [fun s => s == "skip"]
          [ZipCall.addFile "skip" "d/skip", ZipCall.addFile "a" "d/a",
            ZipCall.addString "hello" "d/h"] ∧
    ∃ arch, (⟨some [("d/a", ZipEntry.file "a"), ("d/h", ZipEntry.str "hello")],
        some "out.zip", ["d/a", "d/h"], [fun s => s == "skip"]⟩ : Zipper).close.output_zip
      = some (arch ++ [(manifestPath,
          ZipEntry.str (String.intercalate "\n"
            (expectedManifest [fun s => s == "skip"]
              [ZipCall.addFile "skip" "d/skip", ZipCall.addFile "a" "d/a",
                ZipCall.addString "hello" "d/h"])))]) :=
  c6_manifest_complete [fun s => s == "skip"] "out.zip"
    [ZipCall.addFile "skip" "d/skip", ZipCall.addFile "a" "d/a",
      ZipCall.addString "hello" "d/h"]
    ⟨some [("d/a", ZipEntry.file "a"), ("d/h", ZipEntry.str "hello")], some "out.zip",
      ["d/a", "d/h"], [fun s => s == "skip"]⟩ rfl

/-- Claim C8 (confirmed): with dry-run enabled, `open` sets no output
archive, the manifest stays empty, `add_file` either skips or fails on the
unbound `path_in_full` but never writes or extends the manifest (the state
is returned unchanged when it succeeds), `add_string` is the identity, and
`close` on the never-opened archive is a no-op. -/
theorem c8_dryrun_noop (excludes : List (String → Bool)) (path pin pout s : String) :
    ((Zipper.init excludes).open_zip true path).output_zip = none ∧
    ((Zipper.init excludes).open_zip true path).manifest = [] ∧
    (((Zipper.init excludes).open_zip true path).add_file pin pout
        = Except.ok ((Zipper.init excludes).open_zip true path) ∨
      ((Zipper.init excludes).open_zip true path).add_file pin pout
        = Except.error unboundLocalMsg) ∧
    ((Zipper.init excludes).open_zip true path).add_string s pout
      = (Zipper.init excludes).open_zip true path ∧
    ((Zipper.init excludes).open_zip true path).close
      = (Zipper.init excludes).open_zip true path := by
  refine ⟨rfl, rfl, ?_, rfl, rfl⟩
  cases hex : excludes with
  | nil =>
      right
      apply add_file_empty
      simp [Zipper.init, Zipper.open_zip]
  | cons p ps =>
      left
      have hex' : ((Zipper.init (p :: ps)).open_zip true path).re_excludes ≠ [] := by
        simp [Zipper.init, Zipper.open_zip]
      by_cases hmatch : ((Zipper.init (p :: ps)).open_zip true path).re_excludes.any
          (fun re => re pin) = true
      · exact add_file_skip pin pout hex' hmatch
      · refine add_file_closed pin pout hex' ?_ rfl
        cases hm : ((Zipper.init (p :: ps)).open_zip true path).re_excludes.any
            (fun re => re pin)
        · rfl
        · exact absurd hm hmatch

/-- Claim C9 (confirmed): a `Zipper` built with zero exclusion patterns
makes every `add_file` call read the loop-local `path_in_full` before any
assignment to it (the exclusion loop never runs), so the call raises an
unbound-local error instead of adding the file. -/
theorem c9_add_file_unbound_local (z : Zipper) (pin pout : String)
    (h : z.re_excludes = []) :
    z.add_file pin pout = Except.error unboundLocalMsg :=
  add_file_empty pin pout h

/-- Witness for C9 on a freshly constructed pattern-less `Zipper`. -/
theorem c9_add_file_unbound_local_witness :
    (Zipper.init []).add_file "a.txt" "d/a.txt" = Except.error unboundLocalMsg :=
  c9_add_file_unbound_local (Zipper.init []) "a.txt" "d/a.txt" rfl

/-! Structure of the keys produced by `INIConfigManager.load`. -/

lemma parseSection_keys {opts : List (String × String)} {k : String}
    (h : k ∈ (parseSection opts).map Prod.fst) :
    ∃ raw, k = lowerStr raw := by
  unfold parseSection at h
  rw [show (opts.foldl (fun acc nv => dinsert acc (lowerStr nv.1) nv.2) [])
      = ((opts.map (fun nv => (lowerStr nv.1, nv.2))).foldl
          (fun a q => dinsert a q.1 q.2) []) from by rw [List.foldl_map]] at h
  rcases foldl_dinsert_keys _ [] k h with h' | h'
  · simp at h'
  · rw [List.map_map] at h'
    rcases List.mem_map.mp h' with ⟨nv, _, he⟩
    exact ⟨nv.1, he.symm⟩

lemma loadItems_keys {s : String} {map : List (String × String)} :
    ∀ (l : List (String × String)) (acc acc' : Dict),
      loadItems s map acc l = .ok acc' →
      ∀ k ∈ acc'.map Prod.fst,
        k ∈ acc.map Prod.fst ∨ ∃ n ∈ l.map Prod.fst, k = joinKey s n := by
  intro l
  induction l with
  | nil =>
      intro acc acc' h k hk
      simp [loadItems] at h
      subst h
      exact Or.inl hk
  | cons nv rest ih =>
      intro acc acc' h k hk
      cases nv with
      | mk n v =>
          simp only [loadItems] at h
          cases hi : interpValue map v with
          | error e => rw [hi] at h; cases h
          | ok v' =>
              rw [hi] at h
              rcases ih (dinsert acc (joinKey s n) v') acc' h k hk with h' | ⟨n', hn', he⟩
              · rcases (mem_keys_dinsert v').mp h' with h'' | h''
                · exact Or.inr ⟨n, by simp, h''⟩
                · exact Or.inl h''
              · exact Or.inr ⟨n', by simp [hn'], he⟩

lemma loadSections_keys :
    ∀ (f : IniFile) (acc m : Dict), loadSections acc f = .ok m →
      ∀ k ∈ m.map Prod.fst,
        k ∈ acc.map Prod.fst ∨
          ∃ sec ∈ f, ∃ n ∈ (parseSection sec.2).map Prod.fst, k = joinKey sec.1 n := by
  intro f
  induction f with
  | nil =>
      intro acc m h k hk
      simp [loadSections] at h
      subst h
      exact Or.inl hk
  | cons sec rest ih =>
      intro acc m h k hk
      cases sec with
      | mk s opts =>
          simp only [loadSections] at h
          cases hi : loadItems s (parseSection opts) acc (parseSection opts) with
          | error e => rw [hi] at h; cases h
          | ok acc' =>
              rw [hi] at h
              rcases ih acc' m h k hk with h' | ⟨sec', hsec', hrest⟩
              · rcases loadItems_keys _ _ _ hi k h' with h'' | ⟨n, hn, he⟩
                · exact Or.inl h''
                · exact Or.inr ⟨(s, opts), by simp, n, hn, he⟩
              · exact Or.inr ⟨sec', List.mem_cons_of_mem _ hsec', hrest⟩

/-- Claim C2 (code bug): `save` can never complete a write, so a
`save`-then-`load` round trip never yields a map at all.  Line 748 of the
module evaluates `FileWriter(path)`, but no `FileWriter` exists in the
module (only `class File` does) nor in any of its imports, so every run
of `save` that survives the key loop raises `NameError` before writing.
The spec's round-trip property and worked example, and the class's own
docstring ("Loads/saves INI format configuration"), show the claim is the
intent and the code a slip. -/
theorem c2_save_filewriter_name_error :
    (∀ d : Dict, ∃ e, INIConfigManager.save d = Except.error e) ∧
    INIConfigManager.save [("volt.port", "21212")] = Except.error fileWriterErrMsg :=
  ⟨save_never_ok, rfl⟩

/-- Claim C4, counterexample: the parser's own validation can fire before
the usage abort, so the usage error does not name the offending key for
every map containing one.  With `{"a.b": "50%", "nodot": "x"}` the sorted
loop processes `a.b` first and `SafeConfigParser.set` raises `ValueError`
on the stray `%`; with `{"default.a": "v", "nodot": "x"}` it is
`add_section` that raises `ValueError` on the `default` section name.  In
both runs the error is not the usage message naming `nodot`. -/
theorem c4_save_missing_separator_counterexample :
    INIConfigManager.save [("a.b", "50%"), ("nodot", "x")]
      = Except.error valuePercentErrMsg ∧
    INIConfigManager.save [("default.a", "v"), ("nodot", "x")]
      = Except.error (invalidSectionErrMsg "default") ∧
    valuePercentErrMsg ≠ keyErrMsg "nodot" ∧
    invalidSectionErrMsg "default" ≠ keyErrMsg "nodot" :=
  ⟨rfl, rfl, by decide, by decide⟩

/-- Claim C4 as amended: for a map with a key lacking a `.` separator,
provided every dotted key has a value passing the parser's
interpolation-syntax check and a section not named `default` (in any
case), `save` aborts with the usage error naming an offending dotless
key; and nothing is ever written to the target file — unconditionally,
since `save` cannot reach its write (the `FileWriter` defect, claim C2)
and aborts leave every file as it was. -/
theorem c4_save_missing_separator (disk : String → Option IniFile) (path : String)
    (d : Dict) (hbad : ∃ k ∈ d.map Prod.fst, hasDot k = false)
    (hgood : ∀ k ∈ d.map Prod.fst, hasDot k = true →
      percentOk ((dget d k).getD "") = true ∧ lowerStr (sectOf k) ≠ "default") :
    (∃ k0, hasDot k0 = false ∧ k0 ∈ d.map Prod.fst ∧
      saveToDisk disk path d = (disk, some (keyErrMsg k0))) ∧
    ∀ d2 : Dict, (saveToDisk disk path d2).1 = disk := by
  constructor
  · rcases save_err hbad hgood with ⟨k0, h1, h2, h3⟩
    exact ⟨k0, h1, h2, by simp [saveToDisk, h3]⟩
  · intro d2
    rcases save_never_ok d2 with ⟨e, he⟩
    simp [saveToDisk, he]

/-- Witness for the amended C4 at a concrete map with an invalid key. -/
theorem c4_save_missing_separator_witness :
    (∃ k0, hasDot k0 = false ∧ k0 ∈ ([("noDotKey", "x"), ("a.b", "y")].map Prod.fst) ∧
      saveToDisk (fun _ => none) "volt.cfg" [("noDotKey", "x"), ("a.b", "y")]
        = (fun _ => none, some (keyErrMsg k0))) ∧
    ∀ d2 : Dict, (saveToDisk (fun _ => none) "volt.cfg" d2).1 = (fun _ => none) :=
  c4_save_missing_separator (fun _ => none) "volt.cfg" [("noDotKey", "x"), ("a.b", "y")]
    ⟨"noDotKey", by simp, rfl⟩ (by decide)

/-- Claim C7 (code bug): `set_permanent` and `set_local` mutate the
in-memory tier but never re-save the tier's file: the immediate
`save_permanent`/`save_local` call runs `INIConfigManager.save`, which
raises the `FileWriter` `NameError` before its write (or aborts in the
key loop), so no tier file is ever rewritten.  The spec's worked example
("reloading perm.cfg shows a [volt] host = node1 line") shows the
re-save is the intent and the code a slip.  The first conjunct shows
every call fails; the concrete runs show the failure is the `FileWriter`
error, i.e. the write itself. -/
theorem c7_set_tier_save_crash :
    (∀ (st : ConfigState) (key value : String),
      (∃ e, st.set_permanent key value = Except.error e) ∧
      (∃ e, st.set_local key value = Except.error e)) ∧
    ConfigState.set_permanent
        ⟨⟨[("volt.port", "21212")], [("volt.port", "21311")]⟩, none, none⟩
        "volt.host" "node1" = Except.error fileWriterErrMsg ∧
    ConfigState.set_local
        ⟨⟨[("volt.port", "21212")], [("volt.port", "21311")]⟩, none, none⟩
        "volt.host" "node1" = Except.error fileWriterErrMsg := by
  refine ⟨?_, rfl, rfl⟩
  intro st key value
  constructor
  · rcases save_never_ok (dinsert st.cfg.permanent key value) with ⟨e, he⟩
    exact ⟨e, by simp [ConfigState.set_permanent, he]⟩
  · rcases save_never_ok (dinsert st.cfg.local_ key value) with ⟨e, he⟩
    exact ⟨e, by simp [ConfigState.set_local, he]⟩

/-- Claim C10, counterexample: a section header may itself contain a dot,
and section names are not lowercased; flattening `[A.B] c = v` produces
the key `A.B.c`, whose part after the first dot, `B.c`, is not
lowercase. -/
theorem c10_lowercase_counterexample :
    INIConfigManager.load [("A.B", [("c", "v")])] = Except.ok [("A.B.c", "v")] ∧
    nameOf "A.B.c" = "B.c" ∧
    lowerStr "B.c" ≠ "B.c" :=
  ⟨rfl, rfl, by decide⟩

/-- Claim C10 as amended: for a file whose section headers contain no
dot, every key of a successful `load` has a lowercase name part, because
the parser lowercases option names on read.  (The claim's corollary about
reloading a saved key cannot survive: `save` never produces a file at all
— the `FileWriter` defect of claim C2.) -/
theorem c10_lowercase_amended (f : IniFile) (m : Dict)
    (h : INIConfigManager.load f = Except.ok m)
    (hs : ∀ s ∈ sections f, hasDot s = false) :
    ∀ k ∈ m.map Prod.fst, lowerStr (nameOf k) = nameOf k := by
  intro k hk
  rcases loadSections_keys f [] m h k hk with h' | ⟨sec, hsec, n, hn, he⟩
  · simp at h'
  · subst he
    have hsect : '.' ∉ sec.1.data :=
      not_dot_of_hasDot_false (hs sec.1 (List.mem_map.mpr ⟨sec, hsec, rfl⟩))
    rcases parseSection_keys hn with ⟨raw, hraw⟩
    subst hraw
    rw [nameOf_joinKey _ hsect, lowerStr_idem]

/-- Witness for the amended C10: loading a dot-free-section file with an
uppercase option name yields the lowercased key `a.b`. -/
theorem c10_lowercase_amended_witness :
    lowerStr (nameOf "a.b") = nameOf "a.b" :=
  c10_lowercase_amended [("a", [("B", "v")])] [("a.b", "v")] rfl (by decide)
    "a.b" (by decide)

end VoltCLI
